import Mathlib

/-!
Verification of the dev.to content-analysis engine.

This file gives a shallow embedding of the pure core of the repository:
the content-signal analyzers of `src/utils/content-analysis.ts` and the
comment-tree builder of `src/services/devto.ts`, together with theorems
about them.

Modelling conventions:
  * JavaScript strings are modelled as Lean `String` / `List Char`;
    `.length` counts characters (identical to UTF-16 units on the ASCII
    inputs exercised here), `toLowerCase` is `Char.toLower` applied
    characterwise.
  * Regular-expression scans are modelled as explicit left-to-right
    scanner functions that mirror the JS engine's leftmost, non-greedy /
    greedy, and non-overlapping global-match behavior.
  * `Math.round(total / len)` on nonnegative integers is modelled with
    exact rational semantics as `(2 * total + len) / (2 * len)` in `Nat`
    arithmetic (round half up), which agrees with the floating point
    computation on all realistically sized inputs.
  * The mutable comment records of `buildCommentTree` are identified by
    their position in the input list, so repeated record values and the
    last-write-wins `Map` are modelled faithfully.
-/

/-- The backtick character, written by code so the source stays free of
raw backticks. -/
def btick : Char := '\x60'

/-- JS `\s` on the ASCII range: space, tab, newline, carriage return,
vertical tab, form feed. -/
def isWsp (c : Char) : Bool :=
  c = ' ' ∨ c = '\t' ∨ c = '\n' ∨ c = '\r' ∨ c = '\x0b' ∨ c = '\x0c'

/-- JS `.` (no `s` flag): any character except a line terminator. -/
def notNL (c : Char) : Bool := ¬ (c = '\n' ∨ c = '\r')

/-- `startsList needle hay` holds when `needle` is an initial segment of
`hay`. -/
def startsList : List Char → List Char → Bool
  | [], _ => true
  | _ :: _, [] => false
  | a :: as, b :: bs => a = b && startsList as bs

/-- `hasSub needle hay`: JS `String.prototype.includes`, an exact
substring test. -/
def hasSub (needle : List Char) : List Char → Bool
  | [] => startsList needle []
  | c :: t => startsList needle (c :: t) || hasSub needle t

/-- Characterwise `toLowerCase`. -/
def toLowerList (l : List Char) : List Char := l.map Char.toLower

/-- JS `String.prototype.trim` (both ends, on ASCII whitespace). -/
def trimChars (l : List Char) : List Char :=
  ((l.dropWhile isWsp).reverse.dropWhile isWsp).reverse

/-- Case-insensitive `includes`, as in
`content.toLowerCase().includes(term.toLowerCase())`. -/
def includesCI (content term : String) : Bool :=
  hasSub (toLowerList term.toList) (toLowerList content.toList)

/-- Order-preserving deduplication keeping first occurrences, with an
accumulator of already seen elements; models iterating a JS `Set`. -/
def dedupSeen : List String → List String → List String
  | _, [] => []
  | seen, x :: xs =>
    if x ∈ seen then dedupSeen seen xs else x :: dedupSeen (x :: seen) xs

/-- `Array.from(new Set(l))`: first-appearance-order deduplication. -/
def insertionDedup (l : List String) : List String := dedupSeen [] l

/-- One step of building a JS `Set` as an insertion-ordered list. -/
def setAdd (acc : List String) (s : String) : List String :=
  if s ∈ acc then acc else acc ++ [s]

/-! ## Data model (from `src/types` in `src/unnamed/part_000`) -/

/-- A dev.to comment record; only the fields the verified code reads. -/
structure DevToComment where
  id : Nat
  parent_id : Option Nat
  body_markdown : String
  username : String
  deriving DecidableEq

/-- A dev.to article record; only the field the verified code reads. -/
structure DevToArticle where
  public_reactions_count : Nat
  deriving DecidableEq

/-! ## Expert contributions (`content-analysis.ts` lines 225-238 and
302-313) -/

/-- The `expertContributions` component of a `DiscussionContext`. -/
structure ExpertContributions where
  count : Nat
  authors : List String
  deriving DecidableEq

/-- The expert test of `identifyExpertContributions`: body longer than
300 characters and containing a triple-backtick fence marker or the
substring "http". -/
def isExpertComment (c : DevToComment) : Bool :=
  c.body_markdown.length > 300 &&
    (hasSub [btick, btick, btick] c.body_markdown.toList ||
      hasSub "http".toList c.body_markdown.toList)

/-- `identifyExpertContributions` (lines 225-238). -/
def identifyExpertContributions (comments : List DevToComment) :
    ExpertContributions :=
  let ec := comments.filter isExpertComment
  { count := ec.length
    authors := insertionDedup (ec.map (fun c => c.username)) }

/-- The `expertContributions` field computed inline by `analyzeDiscussion`
(lines 302-313): it filters on body length alone. -/
def analyzeDiscussionExpertContributions (comments : List DevToComment) :
    ExpertContributions :=
  { count := (comments.filter (fun c => c.body_markdown.length > 300)).length
    authors := insertionDedup
      ((comments.filter (fun c => c.body_markdown.length > 300)).map
        (fun c => c.username)) }

/-! ## Comment-tree builder (`devto.ts` lines 87-110)

`buildCommentTree` makes two passes.  Pass 1 fills a `Map` from comment
id to record, so a duplicated id keeps only the record occurring last.
Pass 2 walks the input in order: a record with a truthy `parent_id`
whose id resolves in the map is pushed onto the children of the resolved
record; a record with a falsy `parent_id` (absent, `null`, or `0`) is
pushed onto the root list; a record with a truthy `parent_id` that does
not resolve is pushed nowhere.  Records are identified by their input
position to model JS object identity. -/

/-- Truthiness of `comment['parent_id']`: `null`/absent and `0` are
falsy. -/
def truthyParent (c : DevToComment) : Option Nat :=
  match c.parent_id with
  | none => none
  | some p => if p = 0 then none else some p

/-- Position of the record a given id resolves to in the pass-1 map:
the last input position carrying that id. -/
def lastIdxOf (L : List DevToComment) (p : Nat) : Option Nat :=
  ((List.range L.length).filter
    (fun j => (L.get? j).map (fun c => c.id) = some p)).getLast?

/-- The id stored at a position (0 for an out-of-range position, which
is never consulted). -/
def idAt (L : List DevToComment) (j : Nat) : Nat :=
  ((L.get? j).map (fun c => c.id)).getD 0

/-- The position of the parent record onto whose children list the
record at position `j` is pushed, if any. -/
def posTarget (L : List DevToComment) (j : Nat) : Option Nat :=
  (L.get? j).bind (fun c => (truthyParent c).bind (lastIdxOf L))

/-- The root list returned by `buildCommentTree`, in input order. -/
def rootComments (L : List DevToComment) : List DevToComment :=
  L.filter (fun c => (truthyParent c).isNone)

/-- Positions of the returned roots, in input order. -/
def rootIdxs (L : List DevToComment) : List Nat :=
  (List.range L.length).filter (fun j =>
    ((L.get? j).map (fun c => (truthyParent c).isNone)).getD false)

/-- Positions of the children pushed onto the record at position `i`,
in input (push) order. -/
def childIdxs (L : List DevToComment) (i : Nat) : List Nat :=
  (List.range L.length).filter (fun j => posTarget L j = some i)

/-- Fuelled pre-order traversal of the subtree rooted at position `i`,
collecting comment ids. -/
def subIds (L : List DevToComment) : Nat → Nat → List Nat
  | 0, _ => []
  | f + 1, i => idAt L i :: (childIdxs L i).flatMap (subIds L f)

/-- Pre-order flattening of `buildCommentTree`'s output, collecting
ids.  The fuel `L.length` covers every acyclic tree over `L`. -/
def flattenIds (L : List DevToComment) : List Nat :=
  (rootIdxs L).flatMap (subIds L L.length)

/-! ## Average reactions (`content-analysis.ts` lines 170-175) -/

/-- Nearest-integer rounding of `num / den`, halves rounded up:
`Math.round` on a nonnegative quotient. -/
def roundNearestDiv (num den : Nat) : Nat := (2 * num + den) / (2 * den)

/-- `calculateAverageReactions`: 0 on the empty list, otherwise the
rounded mean of the reaction counts. -/
def calculateAverageReactions (articles : List DevToArticle) : Nat :=
  if articles.length = 0 then 0
  else
    roundNearestDiv
      (articles.map (fun a => a.public_reactions_count)).sum
      articles.length

/-! ## Intro/conclusion structure flags (`content-analysis.ts` lines
121-132) -/

/-- JS `content.split('##')`: split on non-overlapping occurrences of a
double hash. -/
def splitDH : List Char → List (List Char)
  | [] => [[]]
  | [c] => [[c]]
  | c1 :: c2 :: rest =>
    if c1 = '#' ∧ c2 = '#' then [] :: splitDH rest
    else
      match splitDH (c2 :: rest) with
      | h :: t2 => (c1 :: h) :: t2
      | [] => [[c1]]

/-- `hasIntroduction`: the text before the first `##` contains
"introduction" after lowercasing, or is longer than 200 characters. -/
def hasIntroduction (content : String) : Bool :=
  let firstSection := toLowerList ((splitDH content.toList).headD [])
  hasSub "introduction".toList firstSection || firstSection.length > 200

/-- `hasConclusion`: the text after the last `##` contains
"conclusion", "summary" or "final thoughts" after lowercasing. -/
def hasConclusion (content : String) : Bool :=
  let lastSection := toLowerList ((splitDH content.toList).getLastD [])
  hasSub "conclusion".toList lastSection ||
    hasSub "summary".toList lastSection ||
      hasSub "final thoughts".toList lastSection

/-! ## Prerequisite extraction (`content-analysis.ts` lines 90-102)

`extractPrerequisites` first matches
`/prerequisites?:?([\s\S]*?)(?=##|$)/i`: the leftmost case-insensitive
occurrence of "prerequisite", an optional "s", an optional ":", then a
lazy capture ending at the first following "##" or at the end of the
input.  It then collects the global matches of `/[-*]\s*(.*)/g` inside
the capture; each match is a `-` or `*` anywhere, the following maximal
whitespace run (which may cross line breaks), and the remainder of that
line.  Each match is post-processed by `.replace(/[-*]\s*/, '').trim()`. -/

/-- The capture's right end: everything before the first `##`, or the
whole input when there is none (the regex lookahead `(?=##|$)`). -/
def captureToHash : List Char → List Char
  | [] => []
  | [c] => [c]
  | c1 :: c2 :: rest =>
    if c1 = '#' ∧ c2 = '#' then []
    else c1 :: captureToHash (c2 :: rest)

/-- Skip the optional `s?` of the section regex, case-insensitively. -/
def skipOptS : List Char → List Char
  | c :: t => if c.toLower = 's' then t else c :: t
  | [] => []

/-- Skip the optional `:?` of the section regex. -/
def skipOptColon : List Char → List Char
  | c :: t => if c = ':' then t else c :: t
  | [] => []

/-- Find the leftmost case-insensitive occurrence of "prerequisite" and
return the text after it, or `none` when the section regex fails. -/
def findPrereq : List Char → Option (List Char)
  | [] => none
  | c :: t =>
    if startsList "prerequisite".toList (toLowerList (c :: t)) then
      some ((c :: t).drop 12)
    else findPrereq t

/-- The captured span of the prerequisite-section regex, if any. -/
def prereqSpan (l : List Char) : Option (List Char) :=
  (findPrereq l).map (fun rest => captureToHash (skipOptColon (skipOptS rest)))

/-- The successive global matches of `/[-*]\s*(.*)/g`, each returned as
the full matched text, driven by a fuel that decreases every step. -/
def rawBulletMatches : Nat → List Char → List (List Char)
  | 0, _ => []
  | _ + 1, [] => []
  | f + 1, c :: rest =>
    if c = '-' ∨ c = '*' then
      let ws := rest.takeWhile isWsp
      let r1 := rest.dropWhile isWsp
      let line := r1.takeWhile notNL
      (c :: (ws ++ line)) :: rawBulletMatches f (r1.drop line.length)
    else rawBulletMatches f rest

/-- `item.replace(/[-*]\s*/, '')`: delete the first `-`/`*` and the
maximal whitespace run after it. -/
def replaceMarkerWs : List Char → List Char
  | [] => []
  | c :: t => if c = '-' ∨ c = '*' then t.dropWhile isWsp
    else c :: replaceMarkerWs t

/-- `extractPrerequisites` (lines 90-102). -/
def extractPrerequisites (content : String) : List String :=
  match prereqSpan content.toList with
  | none => []
  | some span =>
    (rawBulletMatches (span.length + 1) span).map
      (fun m => String.mk (trimChars (replaceMarkerWs m)))

/-- Modelled from the amended reading of the spec's item rule: the same
scan, emitting directly the trimmed text that follows each marker and
its whitespace run, up to the end of the line. -/
def specBulletTexts : Nat → List Char → List String
  | 0, _ => []
  | _ + 1, [] => []
  | f + 1, c :: rest =>
    if c = '-' ∨ c = '*' then
      let r1 := rest.dropWhile isWsp
      let line := r1.takeWhile notNL
      String.mk (trimChars line) :: specBulletTexts f (r1.drop line.length)
    else specBulletTexts f rest

/-- Modelled from the spec: the claim's item rule, which keeps only
*lines* of the captured span whose content (after leading whitespace)
starts with a `-` or `*` bullet marker, strips the marker and following
whitespace, and trims. -/
def claimBulletLine (line : List Char) : Option String :=
  match line.dropWhile isWsp with
  | c :: t =>
    if c = '-' ∨ c = '*' then some (String.mk (trimChars (t.dropWhile isWsp)))
    else none
  | [] => none

/-- Split into lines at newline characters. -/
def splitLines (l : List Char) : List (List Char) :=
  l.foldr
    (fun c acc =>
      match acc with
      | h :: t => if c = '\n' then [] :: h :: t else (c :: h) :: t
      | [] => [[c]])
    [[]]

/-- Modelled from the spec: the claim's version of
`extractPrerequisites`, collecting only bullet *lines*. -/
def claimedPrereq (content : String) : List String :=
  match prereqSpan content.toList with
  | none => []
  | some span => (splitLines span).filterMap claimBulletLine

/-! ## Technical depth (`content-analysis.ts` lines 10-37 / 254-276) -/

/-- The beginner term dictionary. -/
def technicalTermsBeginner : List String :=
  ["function", "variable", "loop", "if statement", "array"]

/-- The intermediate term dictionary. -/
def technicalTermsIntermediate : List String :=
  ["recursion", "middleware", "authentication", "API", "database"]

/-- The advanced term dictionary. -/
def technicalTermsAdvanced : List String :=
  ["distributed systems", "microservices", "kubernetes",
    "machine learning", "blockchain"]

/-- Count of non-overlapping occurrences of three consecutive
backticks, scanning left to right. -/
def countTicks : List Char → Nat
  | [] => 0
  | [_] => 0
  | [_, _] => 0
  | c1 :: c2 :: c3 :: rest =>
    if c1 = btick ∧ c2 = btick ∧ c3 = btick then countTicks rest + 1
    else countTicks (c2 :: c3 :: rest)

/-- Matches of the non-greedy global regex that pairs consecutive
fence markers: the count of fenced code blocks is the number of
disjoint marker pairs. -/
def countCodeBlocks (l : List Char) : Nat := countTicks l / 2

/-- The three depth tiers. -/
inductive Depth where
  | beginner
  | intermediate
  | advanced
  deriving DecidableEq

/-- The tier order beginner < intermediate < advanced, as a rank. -/
def depthRank : Depth → Nat
  | Depth.beginner => 0
  | Depth.intermediate => 1
  | Depth.advanced => 2

/-- The found-terms record of a `TechnicalContext`. -/
structure FoundTerms where
  beginner : List String
  intermediate : List String
  advanced : List String
  deriving DecidableEq

/-- The dictionary terms of a tier found in the content,
case-insensitively. -/
def foundBeginnerTerms (content : String) : List String :=
  technicalTermsBeginner.filter (fun t => includesCI content t)

/-- Found intermediate terms. -/
def foundIntermediateTerms (content : String) : List String :=
  technicalTermsIntermediate.filter (fun t => includesCI content t)

/-- Found advanced terms. -/
def foundAdvancedTerms (content : String) : List String :=
  technicalTermsAdvanced.filter (fun t => includesCI content t)

/-- The output record of `analyzeTechnicalDepth`. -/
structure TechnicalContext where
  depth : Depth
  codeBlockCount : Nat
  technicalTerms : FoundTerms
  prerequisites : List String
  deriving DecidableEq

/-- `analyzeTechnicalDepth` (lines 10-37): counts code blocks, finds
dictionary terms, decides the tier with the advanced rule first, and
extracts prerequisites. -/
def analyzeTechnicalDepth (content : String) : TechnicalContext :=
  let codeBlockCount := countCodeBlocks content.toList
  let fb := foundBeginnerTerms content
  let fi := foundIntermediateTerms content
  let fa := foundAdvancedTerms content
  { depth :=
      if fa.length > 2 ∨ codeBlockCount > 5 then Depth.advanced
      else if fi.length > 3 ∨ codeBlockCount > 2 then Depth.intermediate
      else Depth.beginner
    codeBlockCount := codeBlockCount
    technicalTerms := { beginner := fb, intermediate := fi, advanced := fa }
    prerequisites := extractPrerequisites content }

/-! ## Topic extraction (`content-analysis.ts` lines 139-152)

`extractTopics` inserts into a `Set` first every match of
`/##\s*(.*)/g` post-processed by `.replace('##', '').trim()`, then every
match of `/\*\*(.*?)\*\*/g` post-processed by
`.replace(/\*\*/g, '').trim()`, and returns `Array.from` of the set. -/

/-- The successive global matches of `/##\s*(.*)/g`, each returned as
the full matched text.  The `\s*` is greedy and may cross line breaks;
the `.*` stops at the end of the line. -/
def headingMatches : Nat → List Char → List (List Char)
  | 0, _ => []
  | _ + 1, [] => []
  | _ + 1, [_] => []
  | f + 1, c1 :: c2 :: rest =>
    if c1 = '#' ∧ c2 = '#' then
      let ws := rest.takeWhile isWsp
      let r1 := rest.dropWhile isWsp
      let line := r1.takeWhile notNL
      ('#' :: '#' :: (ws ++ line)) :: headingMatches f (r1.drop line.length)
    else headingMatches f (c2 :: rest)

/-- `section.replace('##', '')`: delete the first occurrence of a
double hash. -/
def removeFirstDoubleHash : List Char → List Char
  | [] => []
  | [c] => [c]
  | c1 :: c2 :: rest =>
    if c1 = '#' ∧ c2 = '#' then rest
    else c1 :: removeFirstDoubleHash (c2 :: rest)

/-- Seek the closing double asterisk of a lazy `(.*?)` bold span:
returns the span content and the remainder after the closing marker,
failing at a line terminator or the end of input. -/
def seekClose : List Char → Option (List Char × List Char)
  | [] => none
  | [_] => none
  | c1 :: c2 :: rest =>
    if c1 = '*' ∧ c2 = '*' then some ([], rest)
    else if c1 = '\n' ∨ c1 = '\r' then none
    else (seekClose (c2 :: rest)).map (fun pr => (c1 :: pr.1, pr.2))

/-- The successive global matches of `/\*\*(.*?)\*\*/g`, each returned
as the full matched text (both delimiters included). -/
def boldMatches : Nat → List Char → List (List Char)
  | 0, _ => []
  | _ + 1, [] => []
  | _ + 1, [_] => []
  | f + 1, c1 :: c2 :: rest =>
    if c1 = '*' ∧ c2 = '*' then
      match seekClose rest with
      | some (cap, rest2) =>
        ('*' :: '*' :: (cap ++ ['*', '*'])) :: boldMatches f rest2
      | none => boldMatches f (c2 :: rest)
    else boldMatches f (c2 :: rest)

/-- `text.replace(/\*\*/g, '')`: delete every non-overlapping
occurrence of a double asterisk, scanning left to right. -/
def removeDoubleStar : List Char → List Char
  | [] => []
  | [c] => [c]
  | c1 :: c2 :: rest =>
    if c1 = '*' ∧ c2 = '*' then removeDoubleStar rest
    else c1 :: removeDoubleStar (c2 :: rest)

/-- Whether a double asterisk occurs in the text. -/
def hasDoubleStar : List Char → Bool
  | [] => false
  | [_] => false
  | c1 :: c2 :: rest =>
    if c1 = '*' ∧ c2 = '*' then true else hasDoubleStar (c2 :: rest)

/-- The heading-derived topic strings, in document order. -/
def headingItems (l : List Char) : List String :=
  (headingMatches (l.length + 1) l).map
    (fun m => String.mk (trimChars (removeFirstDoubleHash m)))

/-- The bold-derived topic strings, in document order. -/
def boldItems (l : List Char) : List String :=
  (boldMatches (l.length + 1) l).map
    (fun m => String.mk (trimChars (removeDoubleStar m)))

/-- `extractTopics` (lines 139-152): a `Set` receiving all heading
items, then all bold items. -/
def extractTopics (content : String) : List String :=
  ((headingItems content.toList ++ boldItems content.toList).foldl
    setAdd [])

/-- Modelled from the spec: heading texts in document order, each the
trimmed text after the heading marker. -/
def specHeadingTexts : Nat → List Char → List String
  | 0, _ => []
  | _ + 1, [] => []
  | _ + 1, [_] => []
  | f + 1, c1 :: c2 :: rest =>
    if c1 = '#' ∧ c2 = '#' then
      let r1 := rest.dropWhile isWsp
      let line := r1.takeWhile notNL
      String.mk (trimChars line) :: specHeadingTexts f (r1.drop line.length)
    else specHeadingTexts f (c2 :: rest)

/-- Modelled from the spec: bold spans in document order, each the
trimmed delimited content. -/
def specBoldSpans : Nat → List Char → List String
  | 0, _ => []
  | _ + 1, [] => []
  | _ + 1, [_] => []
  | f + 1, c1 :: c2 :: rest =>
    if c1 = '*' ∧ c2 = '*' then
      match seekClose rest with
      | some (cap, rest2) =>
        String.mk (trimChars cap) :: specBoldSpans f rest2
      | none => specBoldSpans f (c2 :: rest)
    else specBoldSpans f (c2 :: rest)

/-- Heading topics together with the document position of the start of
each match, for stating the claimed document ordering.  The first
argument is fuel, the second the position of the current suffix. -/
def posHeadingTexts : Nat → Nat → List Char → List (Nat × String)
  | 0, _, _ => []
  | _ + 1, _, [] => []
  | _ + 1, _, [_] => []
  | f + 1, pos, c1 :: c2 :: rest =>
    if c1 = '#' ∧ c2 = '#' then
      let ws := rest.takeWhile isWsp
      let r1 := rest.dropWhile isWsp
      let line := r1.takeWhile notNL
      (pos, String.mk (trimChars line)) ::
        posHeadingTexts f (pos + 2 + ws.length + line.length)
          (r1.drop line.length)
    else posHeadingTexts f (pos + 1) (c2 :: rest)

/-- Bold spans with the document position of the start of each match. -/
def posBoldSpans : Nat → Nat → List Char → List (Nat × String)
  | 0, _, _ => []
  | _ + 1, _, [] => []
  | _ + 1, _, [_] => []
  | f + 1, pos, c1 :: c2 :: rest =>
    if c1 = '*' ∧ c2 = '*' then
      match seekClose rest with
      | some (cap, rest2) =>
        (pos, String.mk (trimChars cap)) ::
          posBoldSpans f (pos + 4 + cap.length) rest2
      | none => posBoldSpans f (pos + 1) (c2 :: rest)
    else posBoldSpans f (pos + 1) (c2 :: rest)

/-- Insert into a position-sorted list. -/
def insertByPos (x : Nat × String) : List (Nat × String) → List (Nat × String)
  | [] => [x]
  | y :: ys => if x.1 ≤ y.1 then x :: y :: ys else y :: insertByPos x ys

/-- Sort topic items by document position. -/
def sortByPos (l : List (Nat × String)) : List (Nat × String) :=
  l.foldr insertByPos []

/-- Modelled from the spec: the claim's version of `extractTopics`,
with heading and bold topics interleaved in order of first appearance
in the document. -/
def claimedTopics (content : String) : List String :=
  let l := content.toList
  insertionDedup
    ((sortByPos
        (posHeadingTexts (l.length + 1) 0 l ++
          posBoldSpans (l.length + 1) 0 l)).map (fun x => x.2))

/-! ## Support for the comment-tree round-trip argument -/

/-- The breadth-first frontier of the built forest: level 0 is the root
positions, level `k + 1` collects the children of level `k`. -/
def chLevels (L : List DevToComment) : Nat → List Nat
  | 0 => rootIdxs L
  | k + 1 => (chLevels L k).flatMap (childIdxs L)

/-- The concatenation of `f` successive frontiers starting from `xs`. -/
def levelConcat (L : List DevToComment) : Nat → List Nat → List Nat
  | 0, _ => []
  | f + 1, xs => xs ++ levelConcat L f (xs.flatMap (childIdxs L))

/-- The interleaving of ids emitted by `f` successive frontiers. -/
def levelIds (L : List DevToComment) : Nat → List Nat → List Nat
  | 0, _ => []
  | f + 1, xs =>
    xs.map (idAt L) ++ levelIds L f (xs.flatMap (childIdxs L))

/-- The number of positions whose id has smaller rank than the id at
position `j`; bounds the depth of `j` in the built forest. -/
def rankBelow (L : List DevToComment) (rk : Nat → Nat) (j : Nat) : Nat :=
  ((Finset.range L.length).filter
    (fun i => rk (idAt L i) < rk (idAt L j))).card

/-- Shorthand for building a comment in concrete inputs. -/
def mkC (i : Nat) (p : Option Nat) : DevToComment :=
  { id := i, parent_id := p, body_markdown := "", username := "" }

/-! ## Basic membership lemmas for the comment tree -/

lemma mem_childIdxs {L : List DevToComment} {i j : Nat} :
    j ∈ childIdxs L i ↔ j < L.length ∧ posTarget L j = some i := by
  simp [childIdxs, List.mem_filter, List.mem_range]

lemma mem_rootComments {L : List DevToComment} {c : DevToComment} :
    c ∈ rootComments L ↔ c ∈ L ∧ truthyParent c = none := by
  simp [rootComments, List.mem_filter, Option.isNone_iff_eq_none]

/-- C9: a comment whose declared parent id is `0` is pushed onto the
root list and never attached as a child, because `0` is falsy in the
`if (... && comment['parent_id'])` test. -/
theorem C9_parent_zero_is_root (L : List DevToComment) (j : Nat)
    (c : DevToComment) (hj : L.get? j = some c)
    (hp : c.parent_id = some 0) :
    c ∈ rootComments L ∧ ∀ i, j ∉ childIdxs L i := by
  have htr : truthyParent c = none := by simp [truthyParent, hp]
  refine ⟨mem_rootComments.mpr ⟨List.get?_mem hj, htr⟩, ?_⟩
  intro i hmem
  rcases mem_childIdxs.mp hmem with ⟨-, hpt⟩
  rw [posTarget, hj] at hpt
  simp [htr] at hpt

/-- Witness for C9 at a list that also contains a comment whose id is
`0`: the comment with `parent_id = 0` is a root and is not attached to
any record, in particular not to the record with id `0`. -/
theorem C9_witness :
    mkC 7 (some 0) ∈ rootComments [mkC 0 none, mkC 7 (some 0)] ∧
    1 ∉ childIdxs [mkC 0 none, mkC 7 (some 0)] 0 := by
  have h := C9_parent_zero_is_root [mkC 0 none, mkC 7 (some 0)] 1
    (mkC 7 (some 0)) (by decide) rfl
  exact ⟨h.1, h.2 0⟩

/-- C2 (amended): where `buildCommentTree` actually puts each record.
A record with a falsy parent id is a root and is attached nowhere; a
record whose truthy parent id does not resolve in the lookup is dropped
(neither a root nor a child); a record whose truthy parent id resolves
to position `t` (possibly its own position) is pushed exactly onto the
children of `t`. -/
theorem C2_tree_placement (L : List DevToComment) (j : Nat)
    (c : DevToComment) (hj : L.get? j = some c) :
    (truthyParent c = none →
      c ∈ rootComments L ∧ ∀ i, j ∉ childIdxs L i) ∧
    (∀ p, truthyParent c = some p → lastIdxOf L p = none →
      c ∉ rootComments L ∧ ∀ i, j ∉ childIdxs L i) ∧
    (∀ p t, truthyParent c = some p → lastIdxOf L p = some t →
      c ∉ rootComments L ∧ j ∈ childIdxs L t ∧
        ∀ i, i ≠ t → j ∉ childIdxs L i) := by
  have hjlt : j < L.length := List.get?_eq_some.mp hj |>.1
  refine ⟨?_, ?_, ?_⟩
  · intro htr
    refine ⟨mem_rootComments.mpr ⟨List.get?_mem hj, htr⟩, ?_⟩
    intro i hmem
    rcases mem_childIdxs.mp hmem with ⟨-, hpt⟩
    rw [posTarget, hj] at hpt
    simp [htr] at hpt
  · intro p htr hlast
    constructor
    · intro hmem
      rcases mem_rootComments.mp hmem with ⟨-, h0⟩
      rw [htr] at h0
      exact Option.noConfusion h0
    · intro i hmem
      rcases mem_childIdxs.mp hmem with ⟨-, hpt⟩
      rw [posTarget, hj] at hpt
      simp [htr, hlast] at hpt
  · intro p t htr hlast
    refine ⟨?_, ?_, ?_⟩
    · intro hmem
      rcases mem_rootComments.mp hmem with ⟨-, h0⟩
      rw [htr] at h0
      exact Option.noConfusion h0
    · refine mem_childIdxs.mpr ⟨hjlt, ?_⟩
      rw [posTarget, hj]
      simp [htr, hlast]
    · intro i hne hmem
      rcases mem_childIdxs.mp hmem with ⟨-, hpt⟩
      rw [posTarget, hj] at hpt
      simp [htr, hlast] at hpt
      exact hne hpt.symm

/-- Counterexample for C2 as stated: a comment whose parent id is
absent from the input is dropped (the root list stays empty), and a
self-parented comment is pushed onto its own children list rather than
the root list. -/
theorem C2_counterexample :
    (mkC 3 (some 99) ∉ rootComments [mkC 3 (some 99)] ∧
      rootComments [mkC 3 (some 99)] = [] ∧
      childIdxs [mkC 3 (some 99)] 0 = []) ∧
    (mkC 1 (some 1) ∉ rootComments [mkC 1 (some 1)] ∧
      childIdxs [mkC 1 (some 1)] 0 = [0]) := by decide

/-- Witness for C2 (amended) at a concrete input with one root, one
orphan and one self-parented comment. -/
theorem C2_witness :
    mkC 1 none ∈ rootComments [mkC 1 none, mkC 2 (some 5), mkC 3 (some 3)] ∧
    mkC 2 (some 5) ∉ rootComments [mkC 1 none, mkC 2 (some 5), mkC 3 (some 3)] ∧
    1 ∉ childIdxs [mkC 1 none, mkC 2 (some 5), mkC 3 (some 3)] 0 ∧
    2 ∈ childIdxs [mkC 1 none, mkC 2 (some 5), mkC 3 (some 3)] 2 := by
  refine ⟨?_, ?_, ?_, ?_⟩
  · exact ((C2_tree_placement [mkC 1 none, mkC 2 (some 5), mkC 3 (some 3)] 0
      (mkC 1 none) rfl).1 rfl).1
  · exact ((C2_tree_placement [mkC 1 none, mkC 2 (some 5), mkC 3 (some 3)] 1
      (mkC 2 (some 5)) rfl).2.1 5 rfl (by decide)).1
  · exact ((C2_tree_placement [mkC 1 none, mkC 2 (some 5), mkC 3 (some 3)] 1
      (mkC 2 (some 5)) rfl).2.1 5 rfl (by decide)).2 0
  · exact ((C2_tree_placement [mkC 1 none, mkC 2 (some 5), mkC 3 (some 3)] 2
      (mkC 3 (some 3)) rfl).2.2 3 2 rfl (by decide)).2.1

/-! ## C1: expert contributions -/

set_option maxRecDepth 8000 in
/-- C1: divergence of the inline `expertContributions` computation of
`analyzeDiscussion` (lines 302-313) from the expert rule of
`identifyExpertContributions` (lines 225-238).  A single comment of 301
characters with no fence marker and no "http" is counted by the former
and rejected by the latter. -/
theorem C1_inline_filter_drops_content_check :
    analyzeDiscussionExpertContributions
        [{ id := 1, parent_id := none,
           body_markdown := String.mk (List.replicate 301 'a'),
           username := "solo" }] =
      { count := 1, authors := ["solo"] } ∧
    identifyExpertContributions
        [{ id := 1, parent_id := none,
           body_markdown := String.mk (List.replicate 301 'a'),
           username := "solo" }] =
      { count := 0, authors := [] } ∧
    isExpertComment
        { id := 1, parent_id := none,
          body_markdown := String.mk (List.replicate 301 'a'),
          username := "solo" } = false := by decide

/-! ## C6: average reactions -/

lemma sum_const_reactions (l : List DevToArticle) (R : Nat)
    (h : ∀ a ∈ l, a.public_reactions_count = R) :
    (l.map (fun a => a.public_reactions_count)).sum = l.length * R := by
  induction l with
  | nil => simp
  | cons a t ih =>
    have ha : a.public_reactions_count = R := h a (List.mem_cons_self a t)
    have ht : ∀ b ∈ t, b.public_reactions_count = R := by
      intro b hb
      exact h b (List.mem_cons_of_mem a hb)
    simp [ha, ih ht, Nat.succ_mul]
    ring

/-- C6: `calculateAverageReactions` is 0 on the empty list, is the
rounded mean on every non-empty list, and returns exactly `R` on any
non-empty list of articles all carrying reaction count `R`. -/
theorem C6_average_reactions :
    calculateAverageReactions [] = 0 ∧
    (∀ articles : List DevToArticle, articles ≠ [] →
      calculateAverageReactions articles =
        roundNearestDiv
          ((articles.map (fun a => a.public_reactions_count)).sum)
          articles.length) ∧
    (∀ (articles : List DevToArticle) (R : Nat), articles ≠ [] →
      (∀ a ∈ articles, a.public_reactions_count = R) →
      calculateAverageReactions articles = R) := by
  refine ⟨rfl, ?_, ?_⟩
  · intro articles hne
    rw [calculateAverageReactions, if_neg]
    simpa using hne
  · intro articles R hne hall
    have hlen : articles.length ≠ 0 := by simpa using hne
    rw [calculateAverageReactions, if_neg hlen, roundNearestDiv,
      sum_const_reactions articles R hall]
    have h1 : 2 * (articles.length * R) + articles.length =
        (2 * R + 1) * articles.length := by ring
    have h2 : 2 * articles.length = 2 * articles.length := rfl
    rw [h1]
    rw [show 2 * articles.length = articles.length * 2 by ring,
      show (2 * R + 1) * articles.length = articles.length * (2 * R + 1) by ring]
    rw [Nat.mul_div_mul_left _ _ (Nat.pos_of_ne_zero hlen)]
    omega

/-- Witness for C6: three articles with 4 reactions each average to 4,
and the mean of reactions 1 and 2 is the rounded value of 3/2. -/
theorem C6_witness :
    calculateAverageReactions
        [{ public_reactions_count := 4 }, { public_reactions_count := 4 },
          { public_reactions_count := 4 }] = 4 ∧
    calculateAverageReactions
        [{ public_reactions_count := 1 }, { public_reactions_count := 2 }] =
      roundNearestDiv 3 2 := by
  constructor
  · exact C6_average_reactions.2.2 _ 4 (by decide) (by decide)
  · exact C6_average_reactions.2.1
      [{ public_reactions_count := 1 }, { public_reactions_count := 2 }]
      (by decide)

/-! ## C10: structure flags on bodies without a heading marker -/

lemma splitDH_of_no_dh (l : List Char)
    (h : hasSub ['#', '#'] l = false) : splitDH l = [l] := by
  induction l with
  | nil => rfl
  | cons c1 t ih =>
    cases t with
    | nil => rfl
    | cons c2 rest =>
      rw [hasSub, Bool.or_eq_false_iff] at h
      obtain ⟨hst, hrest⟩ := h
      rw [startsList] at hst
      have hne : ¬(c1 = '#' ∧ c2 = '#') := by
        intro ⟨h1, h2⟩
        rw [h1, h2] at hst
        simp [startsList] at hst
      rw [splitDH, if_neg hne, ih hrest]

lemma toLowerList_length (l : List Char) :
    (toLowerList l).length = l.length := by
  simp [toLowerList]

/-- C10: on a body containing no `##`, `hasIntroduction` and
`hasConclusion` test the whole body: the former holds exactly when the
body contains "introduction" case-insensitively or is longer than 200
characters, the latter exactly when the body contains "conclusion",
"summary" or "final thoughts" case-insensitively. -/
theorem C10_flags_whole_body (content : String)
    (h : hasSub ['#', '#'] content.toList = false) :
    (hasIntroduction content = true ↔
      (includesCI content "introduction" = true ∨ content.length > 200)) ∧
    (hasConclusion content = true ↔
      (includesCI content "conclusion" = true ∨
        includesCI content "summary" = true ∨
        includesCI content "final thoughts" = true)) := by
  have hsplit := splitDH_of_no_dh content.toList h
  have hlen : (toLowerList content.toList).length = content.length := by
    rw [toLowerList_length]
    rfl
  have e1 : toLowerList "introduction".toList = "introduction".toList := by
    decide
  have e2 : toLowerList "conclusion".toList = "conclusion".toList := by decide
  have e3 : toLowerList "summary".toList = "summary".toList := by decide
  have e4 : toLowerList "final thoughts".toList = "final thoughts".toList := by
    decide
  constructor
  · rw [hasIntroduction, hsplit]
    simp only [List.headD_cons, includesCI, e1, Bool.or_eq_true,
      decide_eq_true_eq, hlen]
  · rw [hasConclusion, hsplit]
    simp only [List.getLastD_cons, List.getLastD_nil]
    simp only [includesCI, e2, e3, e4, Bool.or_eq_true]
    tauto

/-- Witness for C10 at bodies without a heading marker. -/
theorem C10_witness :
    hasIntroduction "An Introduction to arrays" = true ∧
    hasConclusion "some Final Thoughts here" = true ∧
    hasSub ['#', '#'] "An Introduction to arrays".toList = false := by
  have h1 := C10_flags_whole_body "An Introduction to arrays" (by decide)
  have h2 := C10_flags_whole_body "some Final Thoughts here" (by decide)
  exact ⟨h1.1.mpr (Or.inl (by decide)),
    h2.2.mpr (Or.inr (Or.inr (by decide))), by decide⟩

/-! ## C4 and C5: the depth tier decision -/

/-- C4: the output tier of `analyzeTechnicalDepth` is characterized by
its own found-terms counts and code-block count: `advanced` exactly
when more than 2 advanced terms were found or more than 5 code blocks
counted; otherwise `intermediate` exactly when more than 3 intermediate
terms were found or more than 2 code blocks counted; otherwise
`beginner` — the advanced rule taking precedence. -/
theorem C4_depth_tiers (content : String) :
    ((analyzeTechnicalDepth content).depth = Depth.advanced ↔
      ((analyzeTechnicalDepth content).technicalTerms.advanced.length > 2 ∨
        (analyzeTechnicalDepth content).codeBlockCount > 5)) ∧
    ((analyzeTechnicalDepth content).depth = Depth.intermediate ↔
      (¬((analyzeTechnicalDepth content).technicalTerms.advanced.length > 2 ∨
          (analyzeTechnicalDepth content).codeBlockCount > 5) ∧
        ((analyzeTechnicalDepth content).technicalTerms.intermediate.length > 3 ∨
          (analyzeTechnicalDepth content).codeBlockCount > 2))) ∧
    ((analyzeTechnicalDepth content).depth = Depth.beginner ↔
      (¬((analyzeTechnicalDepth content).technicalTerms.advanced.length > 2 ∨
          (analyzeTechnicalDepth content).codeBlockCount > 5) ∧
        ¬((analyzeTechnicalDepth content).technicalTerms.intermediate.length > 3 ∨
          (analyzeTechnicalDepth content).codeBlockCount > 2))) := by
  simp only [analyzeTechnicalDepth]
  set fa := (foundAdvancedTerms content).length with hfa
  set fi := (foundIntermediateTerms content).length with hfi
  set cb := countCodeBlocks content.toList with hcb
  split_ifs <;> simp_all

/-- C5: with found-terms counts held fixed per tier, the tier of
`analyzeTechnicalDepth` is monotone in the code-block count under the
order beginner < intermediate < advanced. -/
theorem C5_tier_monotone (c1 c2 : String)
    (hb : (foundBeginnerTerms c1).length = (foundBeginnerTerms c2).length)
    (hi : (foundIntermediateTerms c1).length =
      (foundIntermediateTerms c2).length)
    (ha : (foundAdvancedTerms c1).length = (foundAdvancedTerms c2).length)
    (hc : countCodeBlocks c1.toList ≥ countCodeBlocks c2.toList) :
    depthRank (analyzeTechnicalDepth c1).depth ≥
      depthRank (analyzeTechnicalDepth c2).depth := by
  simp only [analyzeTechnicalDepth]
  split_ifs with h1 h2 h3 h4 h5 <;> simp [depthRank] <;> omega

/-- Witness for C5: a body with one fenced code block against the
empty body, both finding no dictionary terms. -/
theorem C5_witness :
    (foundBeginnerTerms "\x60\x60\x60x\x60\x60\x60").length =
      (foundBeginnerTerms "").length ∧
    (foundIntermediateTerms "\x60\x60\x60x\x60\x60\x60").length =
      (foundIntermediateTerms "").length ∧
    (foundAdvancedTerms "\x60\x60\x60x\x60\x60\x60").length =
      (foundAdvancedTerms "").length ∧
    countCodeBlocks "\x60\x60\x60x\x60\x60\x60".toList ≥
      countCodeBlocks "".toList ∧
    depthRank (analyzeTechnicalDepth "\x60\x60\x60x\x60\x60\x60").depth ≥
      depthRank (analyzeTechnicalDepth "").depth := by
  refine ⟨by decide, by decide, by decide, by decide, ?_⟩
  exact C5_tier_monotone "\x60\x60\x60x\x60\x60\x60" ""
    (by decide) (by decide) (by decide) (by decide)

/-! ## C7: prerequisite extraction -/

lemma dropWhile_append_sat (p : Char → Bool) (ws l : List Char)
    (h : ∀ x ∈ ws, p x = true) :
    (ws ++ l).dropWhile p = l.dropWhile p := by
  induction ws with
  | nil => rfl
  | cons w ws ih =>
    rw [List.cons_append, List.dropWhile_cons_of_pos (h w (by simp))]
    exact ih (fun x hx => h x (by simp [hx]))

lemma dropWhile_head_false (p : Char → Bool) :
    ∀ (l : List Char) (a : Char) (t : List Char),
      l.dropWhile p = a :: t → p a = false := by
  intro l
  induction l with
  | nil => intro a t h; simp [List.dropWhile] at h
  | cons c l ih =>
    intro a t h
    by_cases hc : p c
    · rw [List.dropWhile_cons_of_pos hc] at h
      exact ih a t h
    · rw [List.dropWhile_cons_of_neg hc] at h
      cases h
      exact Bool.of_not_eq_true hc

lemma dropWhile_takeWhile_line (r : List Char) :
    ((r.dropWhile isWsp).takeWhile notNL).dropWhile isWsp =
      (r.dropWhile isWsp).takeWhile notNL := by
  cases h : r.dropWhile isWsp with
  | nil => rfl
  | cons a t =>
    have ha : isWsp a = false := dropWhile_head_false isWsp r a t h
    by_cases hn : notNL a
    · rw [List.takeWhile_cons_of_pos hn]
      exact List.dropWhile_cons_of_neg (by simp [ha])
    · rw [List.takeWhile_cons_of_neg hn]
      rfl

lemma replaceMarkerWs_match (c : Char) (rest : List Char)
    (hc : c = '-' ∨ c = '*') :
    replaceMarkerWs
        (c :: (rest.takeWhile isWsp ++
          (rest.dropWhile isWsp).takeWhile notNL)) =
      (rest.dropWhile isWsp).takeWhile notNL := by
  rw [replaceMarkerWs, if_pos hc,
    dropWhile_append_sat isWsp _ _
      (fun x hx => List.mem_takeWhile_imp hx)]
  exact dropWhile_takeWhile_line rest

lemma rawBullet_eq_spec : ∀ (f : Nat) (l : List Char),
    (rawBulletMatches f l).map
        (fun m => String.mk (trimChars (replaceMarkerWs m))) =
      specBulletTexts f l := by
  intro f
  induction f with
  | zero => intro l; rfl
  | succ f ih =>
    intro l
    cases l with
    | nil => rfl
    | cons c rest =>
      by_cases hc : c = '-' ∨ c = '*'
      · simp only [rawBulletMatches, specBulletTexts, if_pos hc,
          List.map_cons]
        rw [replaceMarkerWs_match c rest hc, ih]
      · simp only [rawBulletMatches, specBulletTexts, if_neg hc]
        exact ih rest

lemma findPrereq_none_iff (l : List Char) :
    findPrereq l = none ↔
      hasSub "prerequisite".toList (toLowerList l) = false := by
  induction l with
  | nil => simp [findPrereq, hasSub, toLowerList, startsList]
  | cons c t ih =>
    rw [findPrereq]
    have hmap : toLowerList (c :: t) = c.toLower :: toLowerList t := by
      simp [toLowerList]
    rw [hmap, hasSub, Bool.or_eq_false_iff]
    by_cases hs : startsList "prerequisite".toList
      (c.toLower :: toLowerList t) = true
    · rw [if_pos hs]
      have hs2 : startsList
          ['p', 'r', 'e', 'r', 'e', 'q', 'u', 'i', 's', 'i', 't', 'e']
          (c.toLower :: toLowerList t) = true := hs
      simp [hs2]
    · rw [if_neg hs]
      simp only [Bool.not_eq_true] at hs
      have hs2 : startsList
          ['p', 'r', 'e', 'r', 'e', 'q', 'u', 'i', 's', 'i', 't', 'e']
          (c.toLower :: toLowerList t) = false := hs
      simp [hs2, ih]

/-- Counterexample for C7 as stated: in the body
"prerequisites: a-b" there is no bullet line, yet the code extracts
"b", because the item regex matches a `-` anywhere, not only at the
start of a line. -/
theorem C7_counterexample :
    extractPrerequisites "prerequisites: a-b" = ["b"] ∧
    claimedPrereq "prerequisites: a-b" = [] := by decide

/-- C7 (amended): prerequisite extraction returns the empty list (and
never fails) when the body has no case-insensitive occurrence of
"prerequisite"; otherwise, inside the captured span — from after the
matched word (with optional "s" and ":") up to the first following
"##" or the end of the body — it emits one item for every occurrence of
`-` or `*` anywhere in the span, namely the text after the marker and
its whitespace run up to the end of that line, trimmed, in order. -/
theorem C7_prereq_extraction (content : String) :
    (hasSub "prerequisite".toList (toLowerList content.toList) = false →
      extractPrerequisites content = []) ∧
    extractPrerequisites content =
      (match prereqSpan content.toList with
       | none => []
       | some span => specBulletTexts (span.length + 1) span) := by
  constructor
  · intro h
    rw [extractPrerequisites, prereqSpan,
      (findPrereq_none_iff content.toList).mpr h]
    rfl
  · rw [extractPrerequisites]
    cases h : prereqSpan content.toList with
    | none => rfl
    | some span => exact rawBullet_eq_spec (span.length + 1) span

/-! ## C8: topic extraction -/

lemma dedupSeen_congr : ∀ (xs s1 s2 : List String),
    (∀ a, a ∈ s1 ↔ a ∈ s2) → dedupSeen s1 xs = dedupSeen s2 xs := by
  intro xs
  induction xs with
  | nil => intro s1 s2 h; rfl
  | cons x xs ih =>
    intro s1 s2 h
    rw [dedupSeen, dedupSeen]
    by_cases hx : x ∈ s1
    · rw [if_pos hx, if_pos ((h x).mp hx)]
      exact ih s1 s2 h
    · rw [if_neg hx, if_neg (fun hc => hx ((h x).mpr hc))]
      refine congrArg (x :: ·) (ih (x :: s1) (x :: s2) ?_)
      intro a
      simp [h a]

lemma foldl_setAdd_acc : ∀ (l acc : List String),
    l.foldl setAdd acc = acc ++ dedupSeen acc l := by
  intro l
  induction l with
  | nil => intro acc; simp [dedupSeen]
  | cons x xs ih =>
    intro acc
    rw [List.foldl_cons, dedupSeen, setAdd]
    by_cases hx : x ∈ acc
    · rw [if_pos hx, if_pos hx]
      exact ih acc
    · rw [if_neg hx, if_neg hx, ih (acc ++ [x])]
      rw [dedupSeen_congr xs (acc ++ [x]) (x :: acc) (by intro a; simp; tauto)]
      simp

lemma foldl_setAdd_eq (l : List String) :
    l.foldl setAdd [] = insertionDedup l := by
  rw [foldl_setAdd_acc, insertionDedup]
  rfl

lemma trimChars_wsp_append (ws l : List Char)
    (h : ∀ x ∈ ws, isWsp x = true) :
    trimChars (ws ++ l) = trimChars l := by
  rw [trimChars, trimChars, dropWhile_append_sat isWsp ws l h]

lemma headingMatches_eq_spec : ∀ (f : Nat) (l : List Char),
    (headingMatches f l).map
        (fun m => String.mk (trimChars (removeFirstDoubleHash m))) =
      specHeadingTexts f l := by
  intro f
  induction f with
  | zero => intro l; rfl
  | succ f ih =>
    intro l
    match l with
    | [] => rfl
    | [c] => rfl
    | c1 :: c2 :: rest =>
      by_cases hc : c1 = '#' ∧ c2 = '#'
      · simp only [headingMatches, specHeadingTexts, if_pos hc,
          List.map_cons]
        rw [removeFirstDoubleHash, if_pos ⟨rfl, rfl⟩,
          trimChars_wsp_append _ _ (fun x hx => List.mem_takeWhile_imp hx),
          ih]
      · simp only [headingMatches, specHeadingTexts, if_neg hc]
        exact ih (c2 :: rest)

lemma seekClose_decomp : ∀ (l cap rest : List Char),
    seekClose l = some (cap, rest) → l = cap ++ '*' :: '*' :: rest := by
  intro l
  induction l with
  | nil => intro cap rest h; exact Option.noConfusion h
  | cons c1 t ih =>
    intro cap rest h
    cases t with
    | nil => exact Option.noConfusion h
    | cons c2 rest0 =>
      rw [seekClose] at h
      by_cases hs : c1 = '*' ∧ c2 = '*'
      · rw [if_pos hs] at h
        cases h
        simp [hs.1, hs.2]
      · rw [if_neg hs] at h
        by_cases hn : c1 = '\n' ∨ c1 = '\r'
        · rw [if_pos hn] at h
          exact Option.noConfusion h
        · rw [if_neg hn] at h
          cases hsc : seekClose (c2 :: rest0) with
          | none => rw [hsc] at h; exact Option.noConfusion h
          | some pr =>
            rw [hsc, Option.map_some'] at h
            cases h
            have := ih pr.1 pr.2 hsc
            simp [this]

lemma seekClose_no_ds : ∀ (l cap rest : List Char),
    seekClose l = some (cap, rest) → hasDoubleStar cap = false := by
  intro l
  induction l with
  | nil => intro cap rest h; exact Option.noConfusion h
  | cons c1 t ih =>
    intro cap rest h
    cases t with
    | nil => exact Option.noConfusion h
    | cons c2 rest0 =>
      rw [seekClose] at h
      by_cases hs : c1 = '*' ∧ c2 = '*'
      · rw [if_pos hs] at h
        cases h
        rfl
      · rw [if_neg hs] at h
        by_cases hn : c1 = '\n' ∨ c1 = '\r'
        · rw [if_pos hn] at h
          exact Option.noConfusion h
        · rw [if_neg hn] at h
          cases hsc : seekClose (c2 :: rest0) with
          | none => rw [hsc] at h; exact Option.noConfusion h
          | some pr =>
            rw [hsc, Option.map_some'] at h
            cases h
            have hds := ih pr.1 pr.2 hsc
            have hdec := seekClose_decomp (c2 :: rest0) pr.1 pr.2 hsc
            cases hp : pr.1 with
            | nil => rfl
            | cons d t2 =>
              have hd : d = c2 := by
                rw [hp] at hdec
                exact (List.cons.injEq _ _ _ _).mp hdec |>.1 |>.symm
              rw [hp] at hds
              rw [hasDoubleStar, if_neg, hds]
              intro hcon
              exact hs ⟨hcon.1, by rw [← hd]; exact hcon.2⟩

lemma removeDS_append : ∀ (n : Nat) (cap : List Char), cap.length ≤ n →
    hasDoubleStar cap = false →
    removeDoubleStar (cap ++ ['*', '*']) = cap := by
  intro n
  induction n with
  | zero =>
    intro cap hlen hds
    have : cap = [] := List.length_eq_zero.mp (Nat.le_zero.mp hlen)
    subst this
    rfl
  | succ n ih =>
    intro cap hlen hds
    match cap with
    | [] => rfl
    | [c] =>
      by_cases hc : c = '*'
      · subst hc; rfl
      · show removeDoubleStar (c :: '*' :: ['*']) = [c]
        rw [removeDoubleStar, if_neg (by simp [hc])]
        rfl
    | c1 :: c2 :: t =>
      rw [hasDoubleStar] at hds
      have hne : ¬(c1 = '*' ∧ c2 = '*') := by
        intro hcon
        rw [if_pos hcon] at hds
        exact Bool.noConfusion hds
      rw [if_neg hne] at hds
      have step : removeDoubleStar ((c1 :: c2 :: t) ++ ['*', '*']) =
          if c1 = '*' ∧ c2 = '*' then removeDoubleStar (t ++ ['*', '*'])
          else c1 :: removeDoubleStar ((c2 :: t) ++ ['*', '*']) := rfl
      rw [step, if_neg hne,
        ih (c2 :: t) (by simpa using Nat.le_of_succ_le_succ hlen) hds]

lemma boldMatches_eq_spec : ∀ (f : Nat) (l : List Char),
    (boldMatches f l).map
        (fun m => String.mk (trimChars (removeDoubleStar m))) =
      specBoldSpans f l := by
  intro f
  induction f with
  | zero => intro l; rfl
  | succ f ih =>
    intro l
    match l with
    | [] => rfl
    | [c] => rfl
    | c1 :: c2 :: rest =>
      by_cases hc : c1 = '*' ∧ c2 = '*'
      · simp only [boldMatches, specBoldSpans, if_pos hc]
        cases hsc : seekClose rest with
        | none => exact ih (c2 :: rest)
        | some pr =>
          simp only [List.map_cons]
          have hds := seekClose_no_ds rest pr.1 pr.2 hsc
          have hstar : removeDoubleStar ('*' :: '*' :: (pr.1 ++ ['*', '*'])) =
              removeDoubleStar (pr.1 ++ ['*', '*']) := by
            simp [removeDoubleStar]
          rw [hstar, removeDS_append pr.1.length pr.1 (Nat.le_refl _) hds, ih]
      · simp only [boldMatches, specBoldSpans, if_neg hc]
        exact ih (c2 :: rest)

/-- Counterexample for C8 as stated: in "**b**\n## H" the bold span
"b" appears before the heading "H", but the code lists all heading
topics before all bold topics. -/
theorem C8_counterexample :
    extractTopics "**b**\n## H" = ["H", "b"] ∧
    claimedTopics "**b**\n## H" = ["b", "H"] := by decide

/-- C8 (amended): the topics output is the first-appearance
deduplication of all second-level heading texts in document order
followed by all double-asterisk bold spans in document order, each
trimmed — headings first, rather than interleaved by document
position. -/
theorem C8_topics_heading_then_bold (content : String) :
    extractTopics content =
      insertionDedup
        (specHeadingTexts (content.toList.length + 1) content.toList ++
          specBoldSpans (content.toList.length + 1) content.toList) := by
  rw [extractTopics, foldl_setAdd_eq, headingItems, boldItems,
    headingMatches_eq_spec, boldMatches_eq_spec]

/-! ## C3: comment-tree round trip -/

lemma rootIdxs_nodup (L : List DevToComment) : (rootIdxs L).Nodup :=
  (List.nodup_range _).filter _

lemma childIdxs_nodup (L : List DevToComment) (i : Nat) :
    (childIdxs L i).Nodup :=
  (List.nodup_range _).filter _

lemma count_nodup (l : List Nat) (h : l.Nodup) (a : Nat) :
    l.count a = if a ∈ l then 1 else 0 := by
  by_cases hm : a ∈ l
  · rw [if_pos hm, List.count_eq_one_of_mem h hm]
  · rw [if_neg hm, List.count_eq_zero.mpr hm]

lemma mem_rootIdxs_iff {L : List DevToComment} {j : Nat} {c : DevToComment}
    (hj : L.get? j = some c) :
    j ∈ rootIdxs L ↔ truthyParent c = none := by
  have hlt : j < L.length := (List.get?_eq_some.mp hj).1
  obtain ⟨h2, hget⟩ := List.get?_eq_some.mp hj
  rw [List.get_eq_getElem] at hget
  simp [rootIdxs, List.mem_filter, List.mem_range, hj, hlt,
    Option.isNone_iff_eq_none, hget]

lemma count_childIdxs (L : List DevToComment) (i j : Nat) :
    (childIdxs L i).count j =
      if j < L.length ∧ posTarget L j = some i then 1 else 0 := by
  rw [count_nodup _ (childIdxs_nodup L i)]
  by_cases h : j < L.length ∧ posTarget L j = some i
  · rw [if_pos (mem_childIdxs.mpr h), if_pos h]
  · rw [if_neg (fun hm => h (mem_childIdxs.mp hm)), if_neg h]

lemma count_flatMap (a : Nat) (g : Nat → List Nat) :
    ∀ xs : List Nat,
      (xs.flatMap g).count a = (xs.map (fun i => (g i).count a)).sum := by
  intro xs
  induction xs with
  | nil => rfl
  | cons x xs ih => simp [List.flatMap_cons, List.count_append, ih]

lemma sum_indicator_count (t : Nat) : ∀ xs : List Nat,
    (xs.map (fun i => if i = t then 1 else 0)).sum = xs.count t := by
  intro xs
  induction xs with
  | nil => rfl
  | cons x xs ih =>
    rw [List.map_cons, List.sum_cons, ih, List.count_cons]
    by_cases hx : x = t <;> simp [hx] <;> omega

lemma count_step_none {L : List DevToComment} {j : Nat}
    (h : posTarget L j = none) (xs : List Nat) :
    (xs.flatMap (childIdxs L)).count j = 0 := by
  rw [count_flatMap]
  apply List.sum_eq_zero
  intro x hx
  rcases List.mem_map.mp hx with ⟨i, -, rfl⟩
  rw [count_childIdxs, if_neg]
  intro hc
  rw [h] at hc
  exact Option.noConfusion hc.2

lemma count_step_some {L : List DevToComment} {j t : Nat}
    (hlt : j < L.length) (h : posTarget L j = some t) (xs : List Nat) :
    (xs.flatMap (childIdxs L)).count j = xs.count t := by
  rw [count_flatMap, ← sum_indicator_count t xs]
  congr 1
  apply List.map_congr_left
  intro i _
  rw [count_childIdxs]
  by_cases hit : i = t
  · rw [if_pos ⟨hlt, by rw [h, hit]⟩, if_pos hit]
  · rw [if_neg, if_neg hit]
    intro hc
    rw [h] at hc
    exact hit (Option.some.inj hc.2).symm

lemma count_step_big {L : List DevToComment} {j : Nat}
    (h : ¬ j < L.length) (xs : List Nat) :
    (xs.flatMap (childIdxs L)).count j = 0 := by
  rw [count_flatMap]
  apply List.sum_eq_zero
  intro x hx
  rcases List.mem_map.mp hx with ⟨i, -, rfl⟩
  rw [count_childIdxs, if_neg (fun hc => h hc.1)]

lemma lastIdxOf_spec {L : List DevToComment} {p t : Nat}
    (h : lastIdxOf L p = some t) : t < L.length ∧ idAt L t = p := by
  have hmem := List.mem_of_mem_getLast? h
  rw [List.mem_filter, List.mem_range] at hmem
  obtain ⟨hlt, hid⟩ := hmem
  simp only [decide_eq_true_eq] at hid
  refine ⟨hlt, ?_⟩
  rw [idAt, hid]
  rfl

lemma lastIdxOf_isSome {L : List DevToComment} {p : Nat}
    (h : ∃ d ∈ L, d.id = p) : ∃ t, lastIdxOf L p = some t := by
  obtain ⟨d, hd, hid⟩ := h
  obtain ⟨k, hk⟩ := List.mem_iff_get?.mp hd
  have hklt : k < L.length := (List.get?_eq_some.mp hk).1
  have hkmem : k ∈ (List.range L.length).filter
      (fun j => decide ((L.get? j).map (fun c => c.id) = some p)) := by
    rw [List.mem_filter, List.mem_range]
    refine ⟨hklt, by rw [hk]; simp [hid]⟩
  have hne : (List.range L.length).filter
      (fun j => decide ((L.get? j).map (fun c => c.id) = some p)) ≠ [] :=
    List.ne_nil_of_mem hkmem
  rw [lastIdxOf]
  cases hlast : ((List.range L.length).filter
      (fun j => decide ((L.get? j).map (fun c => c.id) = some p))).getLast? with
  | none => exact absurd (List.getLast?_eq_none_iff.mp hlast) hne
  | some t => exact ⟨t, rfl⟩

lemma posTarget_root {L : List DevToComment} {j : Nat} {c : DevToComment}
    (hj : L.get? j = some c) (h : truthyParent c = none) :
    posTarget L j = none := by
  rw [posTarget, hj]
  simp [h]

lemma posTarget_child {L : List DevToComment} {j : Nat} {c : DevToComment}
    {p : Nat} (hj : L.get? j = some c) (h : truthyParent c = some p)
    (hex : ∃ d ∈ L, d.id = p) :
    ∃ t, posTarget L j = some t ∧ t < L.length ∧ idAt L t = p := by
  obtain ⟨t, ht⟩ := lastIdxOf_isSome hex
  obtain ⟨htlt, htid⟩ := lastIdxOf_spec ht
  refine ⟨t, ?_, htlt, htid⟩
  rw [posTarget, hj]
  simp [h, ht]

lemma rankBelow_lt (L : List DevToComment) (rk : Nat → Nat) (j : Nat)
    (hj : j < L.length) : rankBelow L rk j < L.length := by
  rw [rankBelow]
  have hss : (Finset.range L.length).filter
      (fun i => rk (idAt L i) < rk (idAt L j)) ⊂ Finset.range L.length := by
    refine (Finset.ssubset_iff_of_subset (Finset.filter_subset _ _)).mpr ?_
    exact ⟨j, Finset.mem_range.mpr hj, by simp⟩
  have := Finset.card_lt_card hss
  rwa [Finset.card_range] at this

lemma rankBelow_parent_lt {L : List DevToComment} {rk : Nat → Nat}
    {j t : Nat} (hj : j < L.length) (ht : t < L.length)
    (hrk : rk (idAt L t) < rk (idAt L j)) :
    rankBelow L rk t < rankBelow L rk j := by
  apply Finset.card_lt_card
  refine (Finset.ssubset_iff_of_subset ?_).mpr ?_
  · intro i hi
    rw [Finset.mem_filter] at hi ⊢
    exact ⟨hi.1, lt_trans hi.2 hrk⟩
  · refine ⟨t, ?_, ?_⟩
    · rw [Finset.mem_filter]
      exact ⟨Finset.mem_range.mpr ht, hrk⟩
    · rw [Finset.mem_filter]
      intro hc
      exact lt_irrefl _ hc.2

lemma key_level_count (L : List DevToComment) (rk : Nat → Nat)
    (hPar : ∀ c ∈ L, ∀ p, truthyParent c = some p → ∃ d ∈ L, d.id = p)
    (hRk : ∀ c ∈ L, ∀ p, truthyParent c = some p → rk p < rk c.id) :
    ∀ (r j : Nat), j < L.length → rk (idAt L j) < r →
      ∃ d, d ≤ rankBelow L rk j ∧
        ∀ m, (chLevels L m).count j = if m = d then 1 else 0 := by
  intro r
  induction r with
  | zero => intro j hj hr; exact absurd hr (Nat.not_lt_zero _)
  | succ r ih =>
    intro j hj hr
    obtain ⟨c, hc⟩ : ∃ c, L.get? j = some c := by
      cases hg : L.get? j with
      | none =>
        rw [List.get?_eq_none] at hg
        omega
      | some c => exact ⟨c, rfl⟩
    have hcid : idAt L j = c.id := by rw [idAt, hc]; rfl
    have hcmem : c ∈ L := List.get?_mem hc
    cases htr : truthyParent c with
    | none =>
      refine ⟨0, Nat.zero_le _, ?_⟩
      intro m
      cases m with
      | zero =>
        rw [if_pos rfl, chLevels,
          count_nodup _ (rootIdxs_nodup L),
          if_pos ((mem_rootIdxs_iff hc).mpr htr)]
      | succ m =>
        rw [if_neg (by omega), chLevels]
        exact count_step_none (posTarget_root hc htr) _
    | some p =>
      have hex := hPar c hcmem p htr
      obtain ⟨t, hpt, htlt, htid⟩ := posTarget_child hc htr hex
      have hrkp : rk p < rk c.id := hRk c hcmem p htr
      have hrt : rk (idAt L t) < r := by
        rw [htid]
        rw [hcid] at hr
        omega
      obtain ⟨d, hdle, hdcnt⟩ := ih t htlt hrt
      refine ⟨d + 1, ?_, ?_⟩
      · have hlt2 : rankBelow L rk t < rankBelow L rk j := by
          apply rankBelow_parent_lt hj htlt
          rw [htid, hcid]
          exact hrkp
        omega
      · intro m
        cases m with
        | zero =>
          rw [if_neg (by omega), chLevels,
            count_nodup _ (rootIdxs_nodup L)]
          rw [if_neg]
          intro hmem
          rw [(mem_rootIdxs_iff hc)] at hmem
          rw [htr] at hmem
          exact Option.noConfusion hmem
        | succ m =>
          rw [chLevels, count_step_some hj hpt, hdcnt m]
          by_cases hmd : m = d
          · rw [if_pos hmd, if_pos (by omega)]
          · rw [if_neg hmd, if_neg (by omega)]

lemma perm_middle_swap (A B C : List Nat) :
    (A ++ (B ++ C)).Perm (B ++ (A ++ C)) := by
  rw [← List.append_assoc, ← List.append_assoc]
  exact List.Perm.append_right C List.perm_append_comm

lemma flatMap_cons_perm (g : Nat → Nat) (h : Nat → List Nat) :
    ∀ xs : List Nat,
      (xs.flatMap (fun i => g i :: h i)).Perm
        (xs.map g ++ xs.flatMap h) := by
  intro xs
  induction xs with
  | nil => simp
  | cons x xs ih =>
    rw [List.flatMap_cons, List.map_cons, List.flatMap_cons]
    rw [List.cons_append, List.cons_append]
    refine List.Perm.cons (g x) ?_
    refine List.Perm.trans (List.Perm.append_left (h x) ih) ?_
    exact perm_middle_swap (h x) (xs.map g) (xs.flatMap h)

lemma flatMap_subIds_perm (L : List DevToComment) :
    ∀ (f : Nat) (xs : List Nat),
      (xs.flatMap (subIds L f)).Perm (levelIds L f xs) := by
  intro f
  induction f with
  | zero =>
    intro xs
    have h0 : xs.flatMap (subIds L 0) = [] := by
      simp [subIds]
    rw [h0, levelIds]
  | succ f ih =>
    intro xs
    have h1 : xs.flatMap (subIds L (f + 1)) =
        xs.flatMap (fun i => idAt L i ::
          (childIdxs L i).flatMap (subIds L f)) := rfl
    rw [h1, levelIds]
    refine List.Perm.trans (flatMap_cons_perm _ _ xs) ?_
    rw [← List.flatMap_assoc]
    exact List.Perm.append_left _ (ih _)

lemma levelIds_eq_map (L : List DevToComment) :
    ∀ (f : Nat) (xs : List Nat),
      levelIds L f xs = (levelConcat L f xs).map (idAt L) := by
  intro f
  induction f with
  | zero => intro xs; rfl
  | succ f ih =>
    intro xs
    rw [levelIds, levelConcat, List.map_append, ih]

lemma count_levelConcat (L : List DevToComment) (j d : Nat)
    (hcnt : ∀ m, (chLevels L m).count j = if m = d then 1 else 0) :
    ∀ (f k0 : Nat),
      (levelConcat L f (chLevels L k0)).count j =
        if k0 ≤ d ∧ d < k0 + f then 1 else 0 := by
  intro f
  induction f with
  | zero =>
    intro k0
    rw [levelConcat]
    rw [if_neg (by omega)]
    rfl
  | succ f ih =>
    intro k0
    have hstep : levelConcat L (f + 1) (chLevels L k0) =
        chLevels L k0 ++ levelConcat L f (chLevels L (k0 + 1)) := rfl
    rw [hstep, List.count_append, hcnt k0, ih (k0 + 1)]
    split_ifs <;> omega

lemma chLevels_mem_lt (L : List DevToComment) :
    ∀ (k j : Nat), j ∈ chLevels L k → j < L.length := by
  intro k
  induction k with
  | zero =>
    intro j hj
    rw [chLevels, rootIdxs, List.mem_filter, List.mem_range] at hj
    exact hj.1
  | succ k ih =>
    intro j hj
    rw [chLevels, List.mem_flatMap] at hj
    obtain ⟨i, -, hji⟩ := hj
    exact (mem_childIdxs.mp hji).1

lemma levelConcat_mem_lt (L : List DevToComment) :
    ∀ (f k0 j : Nat), j ∈ levelConcat L f (chLevels L k0) →
      j < L.length := by
  intro f
  induction f with
  | zero => intro k0 j hj; exact absurd hj (List.not_mem_nil j)
  | succ f ih =>
    intro k0 j hj
    have hstep : levelConcat L (f + 1) (chLevels L k0) =
        chLevels L k0 ++ levelConcat L f (chLevels L (k0 + 1)) := rfl
    rw [hstep, List.mem_append] at hj
    rcases hj with hj | hj
    · exact chLevels_mem_lt L k0 j hj
    · exact ih (k0 + 1) j hj

lemma range_map_idAt (L : List DevToComment) :
    (List.range L.length).map (idAt L) = L.map (fun c => c.id) := by
  induction L with
  | nil => rfl
  | cons a t ih =>
    rw [List.length_cons, List.range_succ_eq_map, List.map_cons,
      List.map_map, List.map_cons]
    refine congrArg (_ :: ·) ?_
    rw [← ih]
    apply List.map_congr_left
    intro i _
    rfl

/-- C3 (amended): for an input with no duplicate ids in which every
truthy parent id is the id of some input comment and the parent
relation is acyclic (witnessed by a rank strictly decreasing from child
to parent), the pre-order flattening of the built forest is a
permutation of the input ids — nothing is dropped and nothing is
duplicated. -/
theorem C3_roundtrip_acyclic (L : List DevToComment)
    (hNodup : (L.map (fun c => c.id)).Nodup)
    (hPar : ∀ c ∈ L, ∀ p, truthyParent c = some p → ∃ d ∈ L, d.id = p)
    (hAcyc : ∃ rk : Nat → Nat, ∀ c ∈ L, ∀ p,
      truthyParent c = some p → rk p < rk c.id) :
    (flattenIds L).Perm (L.map (fun c => c.id)) ∧
      (flattenIds L).Nodup := by
  obtain ⟨rk, hRk⟩ := hAcyc
  have hperm0 : (levelConcat L L.length (chLevels L 0)).Perm
      (List.range L.length) := by
    rw [List.perm_iff_count]
    intro j
    by_cases hj : j < L.length
    · obtain ⟨d, hdle, hdcnt⟩ :=
        key_level_count L rk hPar hRk (rk (idAt L j) + 1) j hj
          (Nat.lt_succ_self _)
      have hdn : d < L.length :=
        lt_of_le_of_lt hdle (rankBelow_lt L rk j hj)
      rw [count_levelConcat L j d hdcnt L.length 0,
        if_pos ⟨Nat.zero_le _, by omega⟩,
        count_nodup _ (List.nodup_range _), if_pos (List.mem_range.mpr hj)]
    · rw [List.count_eq_zero.mpr
        (fun hm => hj (levelConcat_mem_lt L L.length 0 j hm)),
        List.count_eq_zero.mpr (fun hm => hj (List.mem_range.mp hm))]
  have hperm : (flattenIds L).Perm (L.map (fun c => c.id)) := by
    have h1 := flatMap_subIds_perm L L.length (rootIdxs L)
    rw [levelIds_eq_map] at h1
    have h2 : rootIdxs L = chLevels L 0 := rfl
    rw [h2] at h1
    refine List.Perm.trans h1 ?_
    rw [← range_map_idAt L]
    exact List.Perm.map (idAt L) hperm0
  exact ⟨hperm, hperm.nodup_iff.mpr hNodup⟩

/-- Counterexample for C3 as stated: an input whose only comment has a
parent id absent from the input has no duplicate ids, yet the pre-order
flattening of the built forest is empty — the comment's id is dropped. -/
theorem C3_counterexample :
    ([mkC 3 (some 99)].map (fun c => c.id)).Nodup ∧
    flattenIds [mkC 3 (some 99)] = [] ∧
    3 ∈ [mkC 3 (some 99)].map (fun c => c.id) ∧
    3 ∉ flattenIds [mkC 3 (some 99)] := by decide

/-- Witness for C3 (amended) at a four-comment forest: one root with
two children, one of which has a further child. -/
theorem C3_witness :
    (flattenIds
        [mkC 1 none, mkC 2 (some 1), mkC 3 (some 1), mkC 4 (some 3)]).Perm
      ([mkC 1 none, mkC 2 (some 1), mkC 3 (some 1),
        mkC 4 (some 3)].map (fun c => c.id)) ∧
    (flattenIds
        [mkC 1 none, mkC 2 (some 1), mkC 3 (some 1),
          mkC 4 (some 3)]).Nodup := by
  refine C3_roundtrip_acyclic _ (by decide) ?_ ⟨fun n => n, ?_⟩
  · intro c hc p hp
    simp only [List.mem_cons, List.not_mem_nil, or_false] at hc
    rcases hc with rfl | rfl | rfl | rfl
    · have h2 : truthyParent (mkC 1 none) = none := by decide
      rw [h2] at hp
      exact Option.noConfusion hp
    · refine ⟨mkC 1 none, by simp, ?_⟩
      have hp1 : p = 1 := by
        have h2 : truthyParent (mkC 2 (some 1)) = some 1 := by decide
        rw [h2] at hp
        exact (Option.some.inj hp).symm
      rw [hp1]
      rfl
    · refine ⟨mkC 1 none, by simp, ?_⟩
      have hp1 : p = 1 := by
        have h2 : truthyParent (mkC 3 (some 1)) = some 1 := by decide
        rw [h2] at hp
        exact (Option.some.inj hp).symm
      rw [hp1]
      rfl
    · refine ⟨mkC 3 (some 1), by simp, ?_⟩
      have hp1 : p = 3 := by
        have h2 : truthyParent (mkC 4 (some 3)) = some 3 := by decide
        rw [h2] at hp
        exact (Option.some.inj hp).symm
      rw [hp1]
      rfl
  · intro c hc p hp
    simp only [List.mem_cons, List.not_mem_nil, or_false] at hc
    rcases hc with rfl | rfl | rfl | rfl
    · have h2 : truthyParent (mkC 1 none) = none := by decide
      rw [h2] at hp
      exact Option.noConfusion hp
    · have h2 : truthyParent (mkC 2 (some 1)) = some 1 := by decide
      rw [h2] at hp
      cases hp
      decide
    · have h2 : truthyParent (mkC 3 (some 1)) = some 1 := by decide
      rw [h2] at hp
      cases hp
      decide
    · have h2 : truthyParent (mkC 4 (some 3)) = some 3 := by decide
      rw [h2] at hp
      cases hp
      decide

/-- Witness for C7 (amended) at a body with no prerequisite section. -/
theorem C7_witness :
    extractPrerequisites "no such section here" = [] :=
  (C7_prereq_extraction "no such section here").1 (by decide)
